import Mathlib

/-!
Shallow embedding of `src/simulator.py` (the `tough-client` load simulator):
the `Client` request/classification logic, its ordered log map, the success
rate, and the `Display` pane-layout / ANSI-aware padding helpers.

Python strings are modelled as `List Char` where character-level work matters
(the ANSI regex) and as `String` for log messages and keys.  Machine reals
(the latency float) are not computed here: the already-formatted latency text
is a parameter of the request cycle.  Each definition mirrors one Python
function and keeps its name.
-/

namespace ToughClient

/-- The escape character `\x1B` starting every ANSI control sequence. -/
def ESC : Char := Char.ofNat 27

/-- ANSI color constants from the top of `simulator.py`. -/
def GREEN : String := "\x1B[92m"

def RED : String := "\x1B[91m"

def BLUE : String := "\x1B[94m"

def BOLD : String := "\x1B[1m"

def RESET : String := "\x1B[0m"

/-- `MAX_LOGS` from `simulator.py`. -/
def MAX_LOGS : Nat := 10

/-! ### The ANSI-escape regex of `Display.ansi_ljust`

The pattern is ESC followed by either a single character in the class
`@..Z` or `\..._` (the Fe escapes), or by `[`, a run of parameter bytes
`0..?`, a run of intermediate bytes (space to slash), and one final byte
`@..~` (a CSI sequence).  It is compiled here to character-class tests and
a deterministic matcher: the three CSI character classes are pairwise
disjoint, so the greedy stars never backtrack. -/

/-- Fe escape class: the single characters `0x40`–`0x5A` and
`0x5C`–`0x5F` (`@..Z` plus backslash to underscore, excluding `[`). -/
def isFe (c : Char) : Bool :=
  (0x40 ≤ c.toNat && c.toNat ≤ 0x5A) || (0x5C ≤ c.toNat && c.toNat ≤ 0x5F)

/-- CSI parameter byte class: `0x30`–`0x3F` (digit zero to question mark). -/
def isCsiParam (c : Char) : Bool :=
  0x30 ≤ c.toNat && c.toNat ≤ 0x3F

/-- CSI intermediate byte class: `0x20`–`0x2F` (space to slash). -/
def isCsiInter (c : Char) : Bool :=
  0x20 ≤ c.toNat && c.toNat ≤ 0x2F

/-- CSI final byte class: `0x40`–`0x7E` (`@` to tilde). -/
def isCsiFinal (c : Char) : Bool :=
  0x40 ≤ c.toNat && c.toNat ≤ 0x7E

/-- Matcher for the tail of a CSI sequence: skip intermediate bytes, then
require one final byte; returns the remainder after the match. -/
def csiInter : List Char → Option (List Char)
  | [] => none
  | c :: rest =>
    if isCsiInter c then csiInter rest
    else if isCsiFinal c then some rest
    else none

/-- Matcher for the part of a CSI sequence after the opening bracket: skip
parameter bytes then hand over to `csiInter`. -/
def csiParams : List Char → Option (List Char)
  | [] => none
  | c :: rest =>
    if isCsiParam c then csiParams rest
    else csiInter (c :: rest)

/-- Try to match the full ANSI regex at the head of the list; on success
return the remainder after the matched control sequence. -/
def matchAnsi : List Char → Option (List Char)
  | c :: d :: rest =>
    if c = ESC then
      if d = '[' then csiParams rest
      else if isFe d then some rest
      else none
    else none
  | _ => none

theorem csiInter_length : ∀ l rem, csiInter l = some rem → rem.length < l.length := by
  intro l
  induction l with
  | nil => intro rem h; simp [csiInter] at h
  | cons c rest ih =>
    intro rem h
    simp only [csiInter] at h
    by_cases hi : isCsiInter c
    · simp [hi] at h
      have := ih rem h
      simpa using Nat.lt_succ_of_lt this
    · by_cases hf : isCsiFinal c
      · simp [hi, hf] at h
        simp [← h]
      · simp [hi, hf] at h

theorem csiParams_length : ∀ l rem, csiParams l = some rem → rem.length < l.length := by
  intro l
  induction l with
  | nil => intro rem h; simp [csiParams] at h
  | cons c rest ih =>
    intro rem h
    simp only [csiParams] at h
    by_cases hp : isCsiParam c
    · simp [hp] at h
      have := ih rem h
      simpa using Nat.lt_succ_of_lt this
    · simp [hp] at h
      exact csiInter_length _ _ h

theorem matchAnsi_length : ∀ l rem, matchAnsi l = some rem → rem.length < l.length := by
  intro l rem h
  match l with
  | [] => simp [matchAnsi] at h
  | [c] => simp [matchAnsi] at h
  | c :: d :: rest =>
    simp only [matchAnsi] at h
    by_cases hc : c = ESC
    · by_cases hd : d = '['
      · simp [hc, hd] at h
        have := csiParams_length _ _ h
        simp only [List.length_cons]
        omega
      · by_cases hf : isFe d
        · simp [hc, hd, hf] at h
          simp [← h]
          omega
        · simp [hc, hd, hf] at h
    · simp [hc] at h

/-- `re.sub(ansi_escape, "", text)`: left-to-right leftmost-match scan
deleting every ANSI control sequence, keeping every other character. -/
def stripAnsi (l : List Char) : List Char :=
  match l with
  | [] => []
  | c :: rest =>
    match h : matchAnsi (c :: rest) with
    | some rem => stripAnsi rem
    | none => c :: stripAnsi rest
termination_by l.length
decreasing_by
  · exact matchAnsi_length _ _ h
  · simp

/-- `Display.ansi_ljust`: pad `text` on the right with spaces so that its
visible length (ANSI sequences stripped) reaches `width`; never truncates. -/
def ansi_ljust (text : List Char) (width : Nat) : List Char :=
  text ++ List.replicate (width - (stripAnsi text).length) ' '

/-! ### The `Client` state and its request cycle -/

/-- Mutable state of a `Client`: the configured payload size and the
statistics and log it mutates.  The log is an insertion-ordered mapping from
timestamp key to colorized message, modelled as an association list (Python
`dict` preserves insertion order). -/
structure ClientState where
  n_chars : Nat
  n_success : Nat
  n_failure : Nat
  logs : List (String × String)
deriving DecidableEq, Repr

/-- Insertion-ordered dict update: if the key is present, replace its value
in place (position kept); otherwise append the new pair at the end.  This is
the semantics of `self.logs[log_key] = colored_message` on a Python dict. -/
def upsertAssoc (k v : String) : List (String × String) → List (String × String)
  | [] => [(k, v)]
  | (k', v') :: rest =>
    if k' = k then (k, v) :: rest else (k', v') :: upsertAssoc k v rest

/-- First-match lookup in the insertion-ordered log (Python `dict` access). -/
def lookupAssoc (k : String) : List (String × String) → Option String
  | [] => none
  | (k', v') :: rest => if k' = k then some v' else lookupAssoc k rest

/-- `Client.upsert_log`: wrap the message in its color and `RESET`, then
store it under `log_key`. -/
def upsert_log (st : ClientState) (message color log_key : String) : ClientState :=
  { st with logs := upsertAssoc log_key (color ++ message ++ RESET) st.logs }

/-- The outcome of the awaited HTTP call inside `run_once`'s `try` block:
either some exception was raised (transport error, timeout, unparsable JSON
body, ...) with its rendered text, or a response arrived, its body parsed as
JSON, carrying a status code and the JSON body's optional integer field
`n_chars` (`none` when the field is missing or not an integer equal to
anything comparable). -/
inductive HttpOutcome where
  | exn (msg : String)
  | response (status : Nat) (nChars : Option Int)
deriving DecidableEq, Repr

/-- `Client.run_once` as a state transition.  Time is external: `log_key` is
the timestamp string chosen at the start of the cycle and `latency` is the
already-formatted 2-decimal elapsed-seconds text interpolated into the
success message.  The cycle first records the blue "Sending" entry under
`log_key`, then classifies the outcome exactly as the Python branches do,
overwriting the same key. -/
def run_once (st : ClientState) (log_key latency : String) (o : HttpOutcome) : ClientState :=
  let st := upsert_log st ("» Sending " ++ toString st.n_chars ++ "c...") BLUE log_key
  match o with
  | .exn msg =>
    upsert_log { st with n_failure := st.n_failure + 1 }
      ("x Error: " ++ msg) RED log_key
  | .response status nChars =>
    if status = 200 then
      if nChars = some (st.n_chars : Int) then
        upsert_log { st with n_success := st.n_success + 1 }
          ("✓ [200] Sent " ++ toString st.n_chars ++ "c (" ++ latency ++ "s)")
          GREEN log_key
      else
        upsert_log { st with n_failure := st.n_failure + 1 }
          "x [200] Incorrect response" RED log_key
    else if status = 429 then
      upsert_log { st with n_failure := st.n_failure + 1 }
        "x [429] Rate limited" RED log_key
    else
      upsert_log { st with n_failure := st.n_failure + 1 }
        ("x [" ++ toString status ++ "] Error") RED log_key

/-- `Client.get_success_rate`, with Python float arithmetic modelled by
exact rational arithmetic. -/
def get_success_rate (st : ClientState) : ℚ :=
  let total := st.n_success + st.n_failure
  if total > 0 then (st.n_success : ℚ) / (total : ℚ) * 100 else 0

/-- A freshly constructed `Client`: zero counters, empty log. -/
def initClient (n_chars : Nat) : ClientState :=
  { n_chars := n_chars, n_success := 0, n_failure := 0, logs := [] }

/-- A sequence of completed request cycles: fold `run_once` over a list of
(log key, latency text, outcome) triples. -/
def runCycles (st : ClientState) (cycles : List (String × String × HttpOutcome)) :
    ClientState :=
  cycles.foldl (fun s c => run_once s c.1 c.2.1 c.2.2) st

/-! ### The `Display` layout helpers -/

/-- `Display._get_term_width`: the terminal's column count when available,
else the fallback 80 (`os.get_terminal_size()` raising is the `none` case). -/
def get_term_width : Option Nat → Nat
  | some w => w
  | none => 80

/-- The pane width computed in `Display.display_logs`:
`max(20, (term_width - 3) // 2)`.  On `Nat`, truncated subtraction gives the
same value as Python's floor division for every width: for `tw ≥ 3` the two
agree exactly, and for `tw < 3` Python's negative quotient and `Nat`'s zero
are both clamped to 20 by the outer `max`. -/
def paneWidth (term_width : Nat) : Nat :=
  max 20 ((term_width - 3) / 2)

/-- The log tail selected in `Display.display_logs`:
`list(client.logs.items())[-MAX_LOGS:]`, i.e. the last `MAX_LOGS` entries in
insertion order (all of them when fewer exist). -/
def logTail (logs : List (String × String)) : List (String × String) :=
  logs.drop (logs.length - MAX_LOGS)

/-! ### Unfolding equations and padding lemmas for `stripAnsi` -/

theorem stripAnsi_nil : stripAnsi [] = [] := by
  rw [stripAnsi]

theorem stripAnsi_cons_some {c : Char} {rest rem : List Char}
    (h : matchAnsi (c :: rest) = some rem) :
    stripAnsi (c :: rest) = stripAnsi rem := by
  rw [stripAnsi]
  split <;> simp_all

theorem stripAnsi_cons_none {c : Char} {rest : List Char}
    (h : matchAnsi (c :: rest) = none) :
    stripAnsi (c :: rest) = c :: stripAnsi rest := by
  rw [stripAnsi]
  split <;> simp_all

theorem matchAnsi_cons_of_ne (c : Char) (rest : List Char) (h : c ≠ ESC) :
    matchAnsi (c :: rest) = none := by
  cases rest <;> simp [matchAnsi, h]

theorem stripAnsi_replicate_space (n : Nat) :
    stripAnsi (List.replicate n ' ') = List.replicate n ' ' := by
  induction n with
  | zero => simp [stripAnsi_nil]
  | succ m ih =>
    rw [List.replicate_succ,
      stripAnsi_cons_none (matchAnsi_cons_of_ne _ _ (by decide)), ih]

theorem csiInter_append_replicate (l : List Char) (n : Nat) :
    csiInter (l ++ List.replicate n ' ') =
      (csiInter l).map (· ++ List.replicate n ' ') := by
  induction l with
  | nil =>
    induction n with
    | zero => simp [csiInter]
    | succ m ih =>
      simpa [List.replicate_succ, csiInter, isCsiInter] using ih
  | cons c rest ih =>
    by_cases hi : isCsiInter c
    · simp [csiInter, hi, ih]
    · by_cases hf : isCsiFinal c <;> simp [csiInter, hi, hf]

theorem csiParams_append_replicate (l : List Char) (n : Nat) :
    csiParams (l ++ List.replicate n ' ') =
      (csiParams l).map (· ++ List.replicate n ' ') := by
  induction l with
  | nil =>
    cases n with
    | zero => simp [csiParams]
    | succ m =>
      rw [List.nil_append, List.replicate_succ]
      simp only [csiParams, isCsiParam]
      norm_num
      simpa [List.replicate_succ] using csiInter_append_replicate [] (m + 1)
  | cons c rest ih =>
    by_cases hp : isCsiParam c
    · simp [csiParams, hp, ih]
    · simpa [csiParams, hp] using csiInter_append_replicate (c :: rest) n

theorem matchAnsi_append_replicate (l : List Char) (n : Nat) :
    matchAnsi (l ++ List.replicate n ' ') =
      (matchAnsi l).map (· ++ List.replicate n ' ') := by
  match l with
  | [] =>
    match n with
    | 0 => simp [matchAnsi]
    | 1 => simp [matchAnsi]
    | (m + 2) =>
      rw [List.nil_append, List.replicate_succ, List.replicate_succ]
      rw [matchAnsi_cons_of_ne _ _ (by decide)]
      simp [matchAnsi]
  | [c] =>
    match n with
    | 0 => simp
    | (m + 1) =>
      rw [List.singleton_append, List.replicate_succ]
      by_cases hc : c = ESC
      · subst hc
        simp [matchAnsi, isFe]
      · rw [matchAnsi_cons_of_ne _ _ hc, matchAnsi_cons_of_ne _ _ hc]
        rfl
  | (c :: d :: rest) =>
    by_cases hc : c = ESC
    · subst hc
      by_cases hd : d = '['
      · subst hd
        simpa [matchAnsi] using csiParams_append_replicate rest n
      · by_cases hf : isFe d <;> simp [matchAnsi, hd, hf]
    · rw [List.cons_append, List.cons_append, matchAnsi_cons_of_ne _ _ hc,
        matchAnsi_cons_of_ne _ _ hc]
      rfl

theorem stripAnsi_append_replicate_aux :
    ∀ (N : Nat) (l : List Char), l.length ≤ N → ∀ (n : Nat),
      stripAnsi (l ++ List.replicate n ' ') =
        stripAnsi l ++ List.replicate n ' ' := by
  intro N
  induction N with
  | zero =>
    intro l hl n
    have : l = [] := List.length_eq_zero.mp (Nat.le_zero.mp hl)
    subst this
    simp [stripAnsi_nil, stripAnsi_replicate_space]
  | succ N ih =>
    intro l hl n
    match l with
    | [] => simp [stripAnsi_nil, stripAnsi_replicate_space]
    | (c :: rest) =>
      have hmm := matchAnsi_append_replicate (c :: rest) n
      cases h : matchAnsi (c :: rest) with
      | some rem =>
        rw [h] at hmm
        have hlen := matchAnsi_length _ _ h
        have hrem : rem.length ≤ N := by
          simp only [List.length_cons] at hlen hl
          omega
        rw [List.cons_append] at hmm ⊢
        rw [stripAnsi_cons_some (by simpa using hmm), stripAnsi_cons_some h]
        exact ih rem hrem n
      | none =>
        rw [h] at hmm
        have hrest : rest.length ≤ N := by
          simp only [List.length_cons] at hl
          omega
        rw [List.cons_append] at hmm ⊢
        rw [stripAnsi_cons_none (by simpa using hmm), stripAnsi_cons_none h,
          ih rest hrest n, List.cons_append]

/-- Appending spaces commutes with ANSI stripping: the padding added by
`ansi_ljust` can never complete or alter a control-sequence match (no match
starts at a space, and a dangling partial sequence at the end of the text is
never completed by spaces, which are not CSI final bytes). -/
theorem stripAnsi_append_replicate (l : List Char) (n : Nat) :
    stripAnsi (l ++ List.replicate n ' ') = stripAnsi l ++ List.replicate n ' ' :=
  stripAnsi_append_replicate_aux l.length l (Nat.le_refl _) n

/-- Stripping is the identity on text containing no escape character. -/
theorem stripAnsi_of_esc_not_mem (l : List Char) (h : ESC ∉ l) : stripAnsi l = l := by
  induction l with
  | nil => exact stripAnsi_nil
  | cons c rest ih =>
    have hc : c ≠ ESC := fun hce => h (hce ▸ List.mem_cons_self c rest)
    rw [stripAnsi_cons_none (matchAnsi_cons_of_ne _ _ hc),
      ih (fun hm => h (List.mem_cons_of_mem c hm))]

theorem lookupAssoc_upsertAssoc (k v : String) (l : List (String × String)) :
    lookupAssoc k (upsertAssoc k v l) = some v := by
  induction l with
  | nil => simp [upsertAssoc, lookupAssoc]
  | cons p rest ih =>
    by_cases hk : p.1 = k
    · simp [upsertAssoc, hk, lookupAssoc]
    · simp [upsertAssoc, hk, lookupAssoc, ih]

theorem strAppend_assoc (a b c : String) : a ++ b ++ c = a ++ (b ++ c) := by
  apply String.ext
  simp [String.data_append]

/-- Every single branch of `run_once` moves exactly one of the two counters
up by exactly one. -/
theorem run_once_step_counts (st : ClientState) (k lat : String) (o : HttpOutcome) :
    ((run_once st k lat o).n_success = st.n_success + 1 ∧
     (run_once st k lat o).n_failure = st.n_failure) ∨
    ((run_once st k lat o).n_success = st.n_success ∧
     (run_once st k lat o).n_failure = st.n_failure + 1) := by
  cases o with
  | exn msg => right; simp [run_once, upsert_log]
  | response status j =>
    by_cases h2 : status = 200
    · by_cases hj : j = some (st.n_chars : Int)
      · left; simp [run_once, upsert_log, h2, hj]
      · right; simp [run_once, upsert_log, h2, hj]
    · by_cases h4 : status = 429
      · right; simp [run_once, upsert_log, h2, h4]
      · right; simp [run_once, upsert_log, h2, h4]

theorem runCycles_counts (cycles : List (String × String × HttpOutcome)) :
    ∀ st : ClientState,
      (runCycles st cycles).n_success + (runCycles st cycles).n_failure
        = st.n_success + st.n_failure + cycles.length := by
  induction cycles with
  | nil => intro st; simp [runCycles]
  | cons c rest ih =>
    intro st
    have hstep := run_once_step_counts st c.1 c.2.1 c.2.2
    have hfold : runCycles st (c :: rest) = runCycles (run_once st c.1 c.2.1 c.2.2) rest := by
      simp [runCycles]
    rw [hfold, ih]
    rcases hstep with ⟨hs, hf⟩ | ⟨hs, hf⟩ <;> rw [hs, hf] <;> simp <;> omega

/-! ### Claim theorems -/

/-- C1, as stated, is false: `ansi_ljust` never truncates, so when the
input's visible length already exceeds the requested width the returned
cell's visible length exceeds the width.  Concretely, the two-character
ANSI-free text `"ab"` left-justified to width 1 keeps visible length 2. -/
theorem ansi_ljust_visible_exceeds_width :
    (stripAnsi (ansi_ljust ['a', 'b'] 1)).length ≠ 1 := by
  have h : stripAnsi ['a', 'b'] = ['a', 'b'] :=
    stripAnsi_of_esc_not_mem _ (by decide)
  simp [ansi_ljust, h]

/-- C1 (amended): whenever the input's visible length (ANSI control
sequences stripped) is at most the requested pane width, the string returned
by `Display.ansi_ljust` has visible length exactly equal to the width; and
the output is the unchanged input — every ANSI control sequence preserved
byte-for-byte — followed only by spaces. -/
theorem ansi_ljust_visible_width (text : List Char) (width : Nat)
    (h : (stripAnsi text).length ≤ width) :
    (stripAnsi (ansi_ljust text width)).length = width ∧
    ∃ pad, ansi_ljust text width = text ++ pad ∧ ∀ c ∈ pad, c = ' ' := by
  constructor
  · rw [ansi_ljust, stripAnsi_append_replicate]
    simp only [List.length_append, List.length_replicate]
    omega
  · exact ⟨List.replicate (width - (stripAnsi text).length) ' ', rfl,
      fun c hc => List.eq_of_mem_replicate hc⟩

/-- Witness for C1 (amended): the green-colored text `"ok"` (visible length
2, seven raw characters) padded to width 5 has visible length exactly 5. -/
theorem ansi_ljust_visible_width_witness :
    (stripAnsi [ESC, '[', '9', '2', 'm', 'o', 'k']).length ≤ 5 ∧
    ((stripAnsi (ansi_ljust [ESC, '[', '9', '2', 'm', 'o', 'k'] 5)).length = 5 ∧
      ∃ pad, ansi_ljust [ESC, '[', '9', '2', 'm', 'o', 'k'] 5 =
          [ESC, '[', '9', '2', 'm', 'o', 'k'] ++ pad ∧ ∀ c ∈ pad, c = ' ') := by
  have hs : stripAnsi [ESC, '[', '9', '2', 'm', 'o', 'k'] = ['o', 'k'] := by
    rw [@stripAnsi_cons_some ESC ['[', '9', '2', 'm', 'o', 'k'] ['o', 'k'] (by decide)]
    exact stripAnsi_of_esc_not_mem _ (by decide)
  refine ⟨by rw [hs]; decide, ansi_ljust_visible_width _ 5 (by rw [hs]; decide)⟩

/-- C10: `Display.ansi_ljust` never truncates — for every text and width the
result is the input followed by zero or more spaces, and when the input's
visible length is already at least the width the input is returned
unchanged, so a rendered cell's visible length can exceed the pane width. -/
theorem ansi_ljust_never_truncates (text : List Char) (width : Nat) :
    (∃ n, ansi_ljust text width = text ++ List.replicate n ' ') ∧
    (width ≤ (stripAnsi text).length → ansi_ljust text width = text) := by
  refine ⟨⟨width - (stripAnsi text).length, rfl⟩, fun h => ?_⟩
  rw [ansi_ljust, Nat.sub_eq_zero_of_le h]
  simp

/-- Witness for C10: `"abc"` (visible length 3) requested at width 2 comes
back unchanged. -/
theorem ansi_ljust_never_truncates_witness :
    2 ≤ (stripAnsi ['a', 'b', 'c']).length ∧
    ansi_ljust ['a', 'b', 'c'] 2 = ['a', 'b', 'c'] := by
  have h : stripAnsi ['a', 'b', 'c'] = ['a', 'b', 'c'] :=
    stripAnsi_of_esc_not_mem _ (by decide)
  exact ⟨by rw [h]; decide,
    (ansi_ljust_never_truncates ['a', 'b', 'c'] 2).2 (by rw [h]; decide)⟩

/-- C2: every completed `run_once` cycle increments exactly one of the two
counters by exactly one, in every branch, and consequently after `N`
completed cycles from a fresh client `n_success + n_failure = N`. -/
theorem run_once_counts_invariant (st : ClientState) (k lat : String)
    (o : HttpOutcome) (n : Nat) (cycles : List (String × String × HttpOutcome)) :
    (((run_once st k lat o).n_success = st.n_success + 1 ∧
      (run_once st k lat o).n_failure = st.n_failure) ∨
     ((run_once st k lat o).n_success = st.n_success ∧
      (run_once st k lat o).n_failure = st.n_failure + 1)) ∧
    (runCycles (initClient n) cycles).n_success
        + (runCycles (initClient n) cycles).n_failure = cycles.length := by
  refine ⟨run_once_step_counts st k lat o, ?_⟩
  rw [runCycles_counts]
  simp [initClient]

/-- C3: on a 200 response, a matching echoed `n_chars` increments the
success counter and records the green confirmation carrying the formatted
latency under the cycle's key; a mismatch increments the failure counter and
records the red "Incorrect response" entry, which differs from the generic
error entry a non-200 status would have produced. -/
theorem run_once_200_classification (st : ClientState) (k lat : String) (j : Option Int) :
    (j = some (st.n_chars : Int) →
      (run_once st k lat (.response 200 j)).n_success = st.n_success + 1 ∧
      (run_once st k lat (.response 200 j)).n_failure = st.n_failure ∧
      lookupAssoc k (run_once st k lat (.response 200 j)).logs =
        some (GREEN ++ ("✓ [200] Sent " ++ toString st.n_chars ++ "c (" ++ lat ++ "s)")
          ++ RESET) ∧
      ∃ a b, GREEN ++ ("✓ [200] Sent " ++ toString st.n_chars ++ "c (" ++ lat ++ "s)")
          ++ RESET = a ++ lat ++ b) ∧
    (j ≠ some (st.n_chars : Int) →
      (run_once st k lat (.response 200 j)).n_failure = st.n_failure + 1 ∧
      (run_once st k lat (.response 200 j)).n_success = st.n_success ∧
      lookupAssoc k (run_once st k lat (.response 200 j)).logs =
        some (RED ++ "x [200] Incorrect response" ++ RESET) ∧
      RED ++ "x [200] Incorrect response" ++ RESET ≠
        RED ++ ("x [" ++ toString (200 : Nat) ++ "] Error") ++ RESET) := by
  constructor
  · intro hj
    refine ⟨by simp [run_once, upsert_log, hj], by simp [run_once, upsert_log, hj], ?_, ?_⟩
    · simp [run_once, upsert_log, hj, lookupAssoc_upsertAssoc]
    · refine ⟨GREEN ++ ("✓ [200] Sent " ++ toString st.n_chars ++ "c ("),
        "s)" ++ RESET, ?_⟩
      simp only [strAppend_assoc]
  · intro hj
    refine ⟨by simp [run_once, upsert_log, hj], by simp [run_once, upsert_log, hj], ?_, by decide⟩
    simp [run_once, upsert_log, hj, lookupAssoc_upsertAssoc]

/-- Witness for C3: a fresh 16-character client observing an echoed 16 (the
matching branch) and an echoed 8 (the mismatching branch). -/
theorem run_once_200_classification_witness :
    (some (16 : Int) = some (((initClient 16).n_chars : Nat) : Int) ∧
      (run_once (initClient 16) "t" "0.10" (.response 200 (some 16))).n_success
        = (initClient 16).n_success + 1) ∧
    (some (8 : Int) ≠ some (((initClient 16).n_chars : Nat) : Int) ∧
      (run_once (initClient 16) "t" "0.10" (.response 200 (some 8))).n_failure
        = (initClient 16).n_failure + 1) := by
  constructor
  · exact ⟨by decide,
      ((run_once_200_classification (initClient 16) "t" "0.10" (some 16)).1 (by decide)).1⟩
  · exact ⟨by decide,
      ((run_once_200_classification (initClient 16) "t" "0.10" (some 8)).2 (by decide)).1⟩

/-- C6: a raised exception (transport failure) is classified locally: the
failure counter goes up by one, the success counter is untouched, and the
red entry recorded under the cycle's key carries the underlying error text.
The `exn` case is an ordinary branch of the total transition function, so
the cycle always returns a successor state — nothing propagates. -/
theorem run_once_exception (st : ClientState) (k lat msg : String) :
    (run_once st k lat (.exn msg)).n_failure = st.n_failure + 1 ∧
    (run_once st k lat (.exn msg)).n_success = st.n_success ∧
    lookupAssoc k (run_once st k lat (.exn msg)).logs =
      some (RED ++ ("x Error: " ++ msg) ++ RESET) ∧
    ∃ a b, RED ++ ("x Error: " ++ msg) ++ RESET = a ++ msg ++ b := by
  refine ⟨by simp [run_once, upsert_log], by simp [run_once, upsert_log], ?_, ?_⟩
  · simp [run_once, upsert_log, lookupAssoc_upsertAssoc]
  · exact ⟨RED ++ "x Error: ", RESET, by simp only [strAppend_assoc]⟩

/-- C7: a 429 response records exactly one failure (success untouched) and
the red rate-limit entry, whose text contains both "429" and "Rate limited"
and differs from the generic error entry for the same status. -/
theorem run_once_429 (st : ClientState) (k lat : String) (j : Option Int) :
    (run_once st k lat (.response 429 j)).n_failure = st.n_failure + 1 ∧
    (run_once st k lat (.response 429 j)).n_success = st.n_success ∧
    lookupAssoc k (run_once st k lat (.response 429 j)).logs =
      some (RED ++ "x [429] Rate limited" ++ RESET) ∧
    (∃ a b, RED ++ "x [429] Rate limited" ++ RESET = a ++ "429" ++ b) ∧
    (∃ a b, RED ++ "x [429] Rate limited" ++ RESET = a ++ "Rate limited" ++ b) ∧
    RED ++ "x [429] Rate limited" ++ RESET ≠
      RED ++ ("x [" ++ toString (429 : Nat) ++ "] Error") ++ RESET := by
  refine ⟨by simp [run_once, upsert_log], by simp [run_once, upsert_log], ?_, ?_, ?_, by decide⟩
  · simp [run_once, upsert_log, lookupAssoc_upsertAssoc]
  · exact ⟨RED ++ "x [", "] Rate limited" ++ RESET, by decide⟩
  · exact ⟨RED ++ "x [429] ", RESET, by decide⟩

/-- C4: the success rate is `n_success / (n_success + n_failure) × 100`
whenever any request completed, always lies in `[0, 100]`, and is `0` by
convention when no request completed. -/
theorem get_success_rate_spec (st : ClientState) :
    0 ≤ get_success_rate st ∧ get_success_rate st ≤ 100 ∧
    (st.n_success + st.n_failure = 0 → get_success_rate st = 0) ∧
    (0 < st.n_success + st.n_failure →
      get_success_rate st
        = (st.n_success : ℚ) / ((st.n_success : ℚ) + (st.n_failure : ℚ)) * 100) := by
  by_cases h : 0 < st.n_success + st.n_failure
  · have h0 : (0 : ℚ) < ((st.n_success + st.n_failure : Nat) : ℚ) := by
      exact_mod_cast h
    have hval : get_success_rate st
        = (st.n_success : ℚ) / ((st.n_success + st.n_failure : Nat) : ℚ) * 100 := by
      simp [get_success_rate, h]
    have hdiv1 : (st.n_success : ℚ) / ((st.n_success + st.n_failure : Nat) : ℚ) ≤ 1 := by
      rw [div_le_one h0]
      exact_mod_cast Nat.le_add_right st.n_success st.n_failure
    refine ⟨?_, ?_, fun hc => absurd hc (by omega), fun _ => ?_⟩
    · rw [hval]; positivity
    · rw [hval]
      nlinarith [hdiv1]
    · rw [hval]; push_cast; ring_nf
  · have hz : st.n_success + st.n_failure = 0 := by omega
    have hval : get_success_rate st = 0 := by simp [get_success_rate, hz]
    exact ⟨by rw [hval], by rw [hval]; norm_num, fun _ => hval, fun hc => absurd hc h⟩

/-- Witness for C4: a fresh client has rate 0; a client with 3 successes
and 1 failure has rate `3/4 × 100`. -/
theorem get_success_rate_spec_witness :
    ((initClient 16).n_success + (initClient 16).n_failure = 0 ∧
      get_success_rate (initClient 16) = 0) ∧
    (0 < (⟨16, 3, 1, []⟩ : ClientState).n_success + (⟨16, 3, 1, []⟩ : ClientState).n_failure ∧
      get_success_rate ⟨16, 3, 1, []⟩
        = ((⟨16, 3, 1, []⟩ : ClientState).n_success : ℚ)
            / (((⟨16, 3, 1, []⟩ : ClientState).n_success : ℚ)
                + ((⟨16, 3, 1, []⟩ : ClientState).n_failure : ℚ)) * 100) := by
  constructor
  · exact ⟨by decide, (get_success_rate_spec (initClient 16)).2.2.1 (by decide)⟩
  · exact ⟨by decide, (get_success_rate_spec ⟨16, 3, 1, []⟩).2.2.2 (by decide)⟩

/-- C5: the tail selected for rendering is the last `min(10, total)` entries
of the insertion-ordered log — at most 10, exactly the most recently
inserted ones, in insertion order (the rest of the log precedes it). -/
theorem logTail_spec (logs : List (String × String)) :
    (logTail logs).length ≤ 10 ∧
    (logTail logs).length = min 10 logs.length ∧
    logs = logs.take (logs.length - MAX_LOGS) ++ logTail logs := by
  refine ⟨?_, ?_, (List.take_append_drop _ _).symm⟩
  · simp only [logTail, List.length_drop, MAX_LOGS]
    omega
  · simp only [logTail, List.length_drop, MAX_LOGS]
    omega

/-- The pane-width formula as claim C8 words it: the total width minus the
columns of the single-column divider, divided by the two panes, floored,
with a minimum of 20. -/
def paneWidthClaimed (term_width : Nat) : Nat :=
  max 20 ((term_width - 1) / 2)

/-- C8, as stated, is false: at the fallback-free width 80 the code reserves
three columns (the divider plus its two flanking spaces), giving pane width
38, while subtracting only the one divider column would give 39. -/
theorem paneWidth_claim_counterexample :
    paneWidth (get_term_width (some 80)) = 38 ∧
    paneWidthClaimed (get_term_width (some 80)) = 39 ∧
    paneWidth (get_term_width (some 80)) ≠ paneWidthClaimed (get_term_width (some 80)) := by
  decide

/-- C8 (amended): with terminal width `w` (fallback 80 when unavailable),
each pane is `max(20, ⌊(w − 3) / 2⌋)` columns — three columns go to the
single-column divider plus one flanking space on each side — and whenever
the un-clamped quotient is at least the 20-column minimum the two panes plus
the 3 divider columns fit the width with at most one column left over. -/
theorem paneWidth_spec (o : Option Nat) (w : Nat) (h : 43 ≤ w) :
    paneWidth (get_term_width o) = max 20 ((get_term_width o - 3) / 2) ∧
    get_term_width none = 80 ∧
    20 ≤ paneWidth (get_term_width o) ∧
    paneWidth w = (w - 3) / 2 ∧
    2 * paneWidth w + 3 ≤ w ∧ w ≤ 2 * paneWidth w + 4 := by
  refine ⟨rfl, rfl, le_max_left _ _, ?_, ?_, ?_⟩ <;> simp only [paneWidth] <;> omega

/-- Witness for C8 (amended): the fallback width 80 gives 38-column panes
filling 79 of the 80 columns. -/
theorem paneWidth_spec_witness :
    43 ≤ 80 ∧
    (paneWidth (get_term_width none) = max 20 ((get_term_width none - 3) / 2) ∧
      get_term_width none = 80 ∧
      20 ≤ paneWidth (get_term_width none) ∧
      paneWidth 80 = (80 - 3) / 2 ∧
      2 * paneWidth 80 + 3 ≤ 80 ∧ 80 ≤ 2 * paneWidth 80 + 4) :=
  ⟨by decide, paneWidth_spec none 80 (by decide)⟩

/-- C9: upserting an existing key rewrites its message in place — entry
count and key order unchanged, the new message retrievable — while a fresh
key appends exactly one entry at the end; duplicate keys therefore never
duplicate entries. -/
theorem upsertAssoc_spec (k v : String) (l : List (String × String)) :
    (k ∈ l.map Prod.fst →
      (upsertAssoc k v l).length = l.length ∧
      (upsertAssoc k v l).map Prod.fst = l.map Prod.fst ∧
      lookupAssoc k (upsertAssoc k v l) = some v) ∧
    (k ∉ l.map Prod.fst → upsertAssoc k v l = l ++ [(k, v)]) := by
  induction l with
  | nil => simp [upsertAssoc]
  | cons p rest ih =>
    constructor
    · intro hmem
      by_cases hk : p.1 = k
      · simp [upsertAssoc, hk, lookupAssoc]
      · have hmem' : k ∈ rest.map Prod.fst := by
          rw [List.map_cons, List.mem_cons] at hmem
          rcases hmem with h1 | h1
          · exact absurd h1.symm hk
          · exact h1
        obtain ⟨h1, h2, h3⟩ := ih.1 hmem'
        refine ⟨by simp [upsertAssoc, hk, h1], by simp [upsertAssoc, hk, h2], ?_⟩
        simp [upsertAssoc, hk, lookupAssoc, h3]
    · intro hmem
      have hk : p.1 ≠ k := by
        intro hc
        exact hmem (by simp [← hc])
      have hmem' : k ∉ rest.map Prod.fst := fun hc => hmem (by simp [hc])
      simp [upsertAssoc, hk, ih.2 hmem']

/-- Witness for C9: overwriting the present key `"a"` keeps one entry;
inserting the fresh key `"b"` appends it. -/
theorem upsertAssoc_spec_witness :
    ("a" ∈ ([("a", "1")] : List (String × String)).map Prod.fst ∧
      (upsertAssoc "a" "2" [("a", "1")]).length = ([("a", "1")] : List (String × String)).length ∧
      (upsertAssoc "a" "2" [("a", "1")]).map Prod.fst
        = ([("a", "1")] : List (String × String)).map Prod.fst ∧
      lookupAssoc "a" (upsertAssoc "a" "2" [("a", "1")]) = some "2") ∧
    ("b" ∉ ([("a", "1")] : List (String × String)).map Prod.fst ∧
      upsertAssoc "b" "2" [("a", "1")] = [("a", "1")] ++ [("b", "2")]) := by
  constructor
  · exact ⟨by decide, (upsertAssoc_spec "a" "2" [("a", "1")]).1 (by decide)⟩
  · exact ⟨by decide, (upsertAssoc_spec "b" "2" [("a", "1")]).2 (by decide)⟩

end ToughClient
